import Mathlib

/-!
Verification development for the ngsolve-miniworkshop notebooks.

The notebooks delegate meshing, assembly and linear algebra to the NGSolve
library; the specification describes the core the notebooks call.  We embed
the notebook-level algorithms (the implicit-Euler time stepping loops of
parabolic.ipynb and the mean-curvature-flow evolution loop) directly from
the source, and model the library operations they use (sparse matrices with
a shared sparsity pattern, free-dof restricted inverses, H1 dof
classification, surface assembly) from the specification.  Scalars are
rationals: the algebraic identities claimed are exact.
-/

namespace NgsWorkshop

/-- Modelled from the spec: a SparseMatrix owns a fixed sparsity pattern,
a list of (row, col) pairs, and a value array indexed in parallel with the
pattern (the vector of nonzero entries exposed by AsVector).  The number of
stored values always equals the pattern length. -/
structure SparseMat where
  pattern : List (Nat × Nat)
  vals : List ℚ
  hlen : vals.length = pattern.length

/-- Modelled from the spec: m.mat.AsVector() exposes the value array of the
stored nonzero entries. -/
def SparseMat.AsVector (s : SparseMat) : List ℚ := s.vals

/-- Modelled from the spec: m.mat.CreateMatrix() copies the sparsity
pattern and allocates a fresh value array (here zero-initialised). -/
def SparseMat.CreateMatrix (s : SparseMat) : SparseMat :=
  ⟨s.pattern, List.replicate s.pattern.length 0, by simp⟩

/-- Modelled from the spec: writing mstar.AsVector().data overwrites the
value array in place; the sparsity pattern is unchanged. -/
def SparseMat.setVector (s : SparseMat) (v : List ℚ)
    (h : v.length = s.pattern.length) : SparseMat :=
  ⟨s.pattern, v, h⟩

/-- The entrywise linear combination of two value arrays,
m.mat.AsVector() + dt * a.mat.AsVector(). -/
def vecCombine (mv av : List ℚ) (dt : ℚ) : List ℚ :=
  List.zipWith (fun x y => x + dt * y) mv av

/-- The matrix entry at (r, c): the stored value at the first pattern
position holding (r, c), and 0 when (r, c) is not in the pattern. -/
def SparseMat.entry (s : SparseMat) (r c : Nat) : ℚ :=
  s.vals.getD (s.pattern.findIdx (fun p => p = (r, c))) 0

/-- The notebook construction of mstar: copy the pattern of m, then set the
value array to m.mat.AsVector() + dt * a.mat.AsVector(). -/
def mstarOf (m a : SparseMat) (dt : ℚ) (hp : a.pattern = m.pattern) : SparseMat :=
  (m.CreateMatrix).setVector (vecCombine m.AsVector a.AsVector dt)
    (by simp [vecCombine, SparseMat.AsVector, SparseMat.CreateMatrix,
          m.hlen, a.hlen, hp])

/-- C1: for two sparse matrices with identical patterns, the pattern-copy
mstar whose value array is set to m.AsVector + dt * a.AsVector satisfies
mstar[r, c] = m[r, c] + dt * a[r, c] at every (r, c) of the shared
pattern, and its sparsity pattern equals the pattern of m: no pattern
merge happens. -/
theorem mstar_entrywise (m a : SparseMat) (dt : ℚ) (hp : a.pattern = m.pattern) :
    (mstarOf m a dt hp).pattern = m.pattern ∧
    ∀ r c : Nat, (r, c) ∈ m.pattern →
      (mstarOf m a dt hp).entry r c = m.entry r c + dt * a.entry r c := by
  constructor
  · rfl
  · intro r c hmem
    have hidx : m.pattern.findIdx (fun p => p = (r, c)) < m.pattern.length := by
      apply List.findIdx_lt_length_of_exists
      exact ⟨(r, c), hmem, by simp⟩
    set i := m.pattern.findIdx (fun p => p = (r, c)) with hi
    have him : i < m.vals.length := by rw [m.hlen]; exact hidx
    have hia : i < a.vals.length := by rw [a.hlen, hp]; exact hidx
    have hstar : (mstarOf m a dt hp).pattern.findIdx (fun p => p = (r, c)) = i := by
      simp only [mstarOf, SparseMat.setVector, SparseMat.CreateMatrix, hi]
    have hap : a.pattern.findIdx (fun p => p = (r, c)) = i := by
      rw [hp, hi]
    have hiz : i < (vecCombine m.AsVector a.AsVector dt).length := by
      simp [vecCombine, SparseMat.AsVector]
      omega
    simp only [SparseMat.entry, hstar, hap, ← hi]
    simp only [mstarOf, SparseMat.setVector]
    rw [List.getD_eq_getElem _ _ hiz, List.getD_eq_getElem _ _ him,
      List.getD_eq_getElem _ _ hia]
    simp [vecCombine, SparseMat.AsVector]

/-- A concrete 2-entry sparse matrix used to instantiate the C1 theorem. -/
def mEx : SparseMat := ⟨[(0, 0), (0, 1)], [1, 2], rfl⟩

/-- A second concrete sparse matrix with the same pattern as mEx. -/
def aEx : SparseMat := ⟨[(0, 0), (0, 1)], [3, 4], rfl⟩

/-- Witness for C1 at concrete input: the two example matrices share their
pattern and the combined matrix at entry (0, 1) equals the entrywise sum. -/
theorem mstar_entrywise_witness :
    aEx.pattern = mEx.pattern ∧
    (mstarOf mEx aEx 2 rfl).entry 0 1 = mEx.entry 0 1 + 2 * aEx.entry 0 1 :=
  ⟨rfl, (mstar_entrywise mEx aEx 2 rfl).2 0 1 (by simp [mEx])⟩

/-- Modelled from the spec: mat.Inverse(freedofs=...) produces a free-dof
restricted solve.  Applied to a right-hand side r, the result vanishes at
every constrained dof, and at every free dof the matrix applied to the
result reproduces r (the free-free block is solved exactly, the constrained
rows of the result are untouched at zero). -/
def IsFreeDofInverse {n : ℕ} (inv mstar : Matrix (Fin n) (Fin n) ℚ)
    (free : Fin n → Bool) : Prop :=
  ∀ r : Fin n → ℚ,
    (∀ i, free i = false → inv.mulVec r i = 0) ∧
    (∀ i, free i = true → mstar.mulVec (inv.mulVec r) i = r i)

/-- The body of one implicit-Euler step from parabolic.ipynb:
res = dt * f.vec - dt * a.mat * gfu.vec; gfu.vec.data += invmstar * res. -/
def cdStep {n : ℕ} (invmstar amat : Matrix (Fin n) (Fin n) ℚ)
    (fvec : Fin n → ℚ) (dt : ℚ) (u : Fin n → ℚ) : Fin n → ℚ :=
  u + invmstar.mulVec (dt • fvec - dt • amat.mulVec u)

/-- An upper bound on the number of loop iterations: the least integer at
or above (tend - dt/2) / dt, clamped to a natural number. -/
def stepBound (dt tend : ℚ) : ℕ := (Int.ceil ((tend - dt / 2) / dt)).toNat

theorem guard_lt_stepBound {dt tend : ℚ} (hdt : 0 < dt) {cnt : ℕ}
    (h : (cnt : ℚ) * dt < tend - dt / 2) : cnt < stepBound dt tend := by
  have h1 : (cnt : ℚ) < (tend - dt / 2) / dt := (lt_div_iff₀ hdt).mpr h
  have h2 : (cnt : ℤ) < Int.ceil ((tend - dt / 2) / dt) :=
    Int.lt_ceil.mpr (by exact_mod_cast h1)
  unfold stepBound
  omega

/-- The while loop of TimeStepping from parabolic.ipynb, entered after the
first iteration, when the loop time is cnt * dt with cnt the number of
steps already executed: while time < tend - 0.5 * dt, perform a cdStep
update, then increment cnt and recompute time = cnt * dt.  Returns the
final step count and solution vector. -/
def timeStepLoop {n : ℕ} (invmstar amat : Matrix (Fin n) (Fin n) ℚ)
    (fvec : Fin n → ℚ) (dt tend : ℚ) (hdt : 0 < dt) (cnt : ℕ)
    (u : Fin n → ℚ) : ℕ × (Fin n → ℚ) :=
  if h : (cnt : ℚ) * dt < tend - dt / 2 then
    timeStepLoop invmstar amat fvec dt tend hdt (cnt + 1)
      (cdStep invmstar amat fvec dt u)
  else (cnt, u)
termination_by stepBound dt tend - cnt
decreasing_by
  have := guard_lt_stepBound hdt h
  omega

/-- TimeStepping from parabolic.ipynb: cnt = 0 and time = t0 on entry, so
the first guard tests t0 < tend - 0.5 * dt; after the first body execution
cnt = 1 and time = cnt * dt, and the remaining iterations are
timeStepLoop.  (Visualisation sampling into the gfut sink is output only
and carries no state.) -/
def timeStepping {n : ℕ} (invmstar amat : Matrix (Fin n) (Fin n) ℚ)
    (fvec : Fin n → ℚ) (dt : ℚ) (hdt : 0 < dt) (t0 tend : ℚ)
    (u0 : Fin n → ℚ) : ℕ × (Fin n → ℚ) :=
  if t0 < tend - dt / 2 then
    timeStepLoop invmstar amat fvec dt tend hdt 1
      (cdStep invmstar amat fvec dt u0)
  else (0, u0)

/-- The while loop of TimeSteppingVTK from parabolic.ipynb: the body first
increments cnt and recomputes time = cnt * dt, then performs the same
cdStep update of the solution vector.  At the loop guard the state is
identical to timeStepLoop; only the output sink (vtk.Do) differs. -/
def timeStepLoopVTK {n : ℕ} (invmstar amat : Matrix (Fin n) (Fin n) ℚ)
    (fvec : Fin n → ℚ) (dt tend : ℚ) (hdt : 0 < dt) (cnt : ℕ)
    (u : Fin n → ℚ) : ℕ × (Fin n → ℚ) :=
  if h : (cnt : ℚ) * dt < tend - dt / 2 then
    timeStepLoopVTK invmstar amat fvec dt tend hdt (cnt + 1)
      (cdStep invmstar amat fvec dt u)
  else (cnt, u)
termination_by stepBound dt tend - cnt
decreasing_by
  have := guard_lt_stepBound hdt h
  omega

/-- TimeSteppingVTK from parabolic.ipynb, with the same entry protocol as
timeStepping and the VTK loop body. -/
def timeSteppingVTK {n : ℕ} (invmstar amat : Matrix (Fin n) (Fin n) ℚ)
    (fvec : Fin n → ℚ) (dt : ℚ) (hdt : 0 < dt) (t0 tend : ℚ)
    (u0 : Fin n → ℚ) : ℕ × (Fin n → ℚ) :=
  if t0 < tend - dt / 2 then
    timeStepLoopVTK invmstar amat fvec dt tend hdt 1
      (cdStep invmstar amat fvec dt u0)
  else (0, u0)

theorem timeStepLoop_exit {n : ℕ} {invmstar amat : Matrix (Fin n) (Fin n) ℚ}
    {fvec : Fin n → ℚ} {dt tend : ℚ} (hdt : 0 < dt) {cnt : ℕ}
    (u : Fin n → ℚ) (h : ¬ ((cnt : ℚ) * dt < tend - dt / 2)) :
    timeStepLoop invmstar amat fvec dt tend hdt cnt u = (cnt, u) := by
  rw [timeStepLoop]
  simp [h]

theorem timeStepLoop_next {n : ℕ} {invmstar amat : Matrix (Fin n) (Fin n) ℚ}
    {fvec : Fin n → ℚ} {dt tend : ℚ} (hdt : 0 < dt) {cnt : ℕ}
    (u : Fin n → ℚ) (h : (cnt : ℚ) * dt < tend - dt / 2) :
    timeStepLoop invmstar amat fvec dt tend hdt cnt u =
      timeStepLoop invmstar amat fvec dt tend hdt (cnt + 1)
        (cdStep invmstar amat fvec dt u) := by
  rw [timeStepLoop]
  simp [h]

theorem timeStepLoopVTK_exit {n : ℕ} {invmstar amat : Matrix (Fin n) (Fin n) ℚ}
    {fvec : Fin n → ℚ} {dt tend : ℚ} (hdt : 0 < dt) {cnt : ℕ}
    (u : Fin n → ℚ) (h : ¬ ((cnt : ℚ) * dt < tend - dt / 2)) :
    timeStepLoopVTK invmstar amat fvec dt tend hdt cnt u = (cnt, u) := by
  rw [timeStepLoopVTK]
  simp [h]

theorem timeStepLoopVTK_next {n : ℕ} {invmstar amat : Matrix (Fin n) (Fin n) ℚ}
    {fvec : Fin n → ℚ} {dt tend : ℚ} (hdt : 0 < dt) {cnt : ℕ}
    (u : Fin n → ℚ) (h : (cnt : ℚ) * dt < tend - dt / 2) :
    timeStepLoopVTK invmstar amat fvec dt tend hdt cnt u =
      timeStepLoopVTK invmstar amat fvec dt tend hdt (cnt + 1)
        (cdStep invmstar amat fvec dt u) := by
  rw [timeStepLoopVTK]
  simp [h]

theorem guard_mono_fail {dt tend : ℚ} (hdt : 0 < dt) {cnt nn : ℕ}
    (hle : cnt ≤ nn) (h : ¬ ((cnt : ℚ) * dt < tend - dt / 2)) :
    ¬ ((nn : ℚ) * dt < tend - dt / 2) := by
  intro hnn
  apply h
  have hc : (cnt : ℚ) ≤ (nn : ℚ) := by exact_mod_cast hle
  nlinarith

theorem loops_eq_aux {n : ℕ} (invmstar amat : Matrix (Fin n) (Fin n) ℚ)
    (fvec : Fin n → ℚ) (dt tend : ℚ) (hdt : 0 < dt) :
    ∀ k cnt, ∀ u : Fin n → ℚ, stepBound dt tend - cnt ≤ k →
      timeStepLoop invmstar amat fvec dt tend hdt cnt u =
        timeStepLoopVTK invmstar amat fvec dt tend hdt cnt u := by
  intro k
  induction k with
  | zero =>
    intro cnt u hk
    have hng : ¬ ((cnt : ℚ) * dt < tend - dt / 2) := by
      intro h
      have := guard_lt_stepBound hdt h
      omega
    rw [timeStepLoop_exit hdt u hng, timeStepLoopVTK_exit hdt u hng]
  | succ k ih =>
    intro cnt u hk
    by_cases h : (cnt : ℚ) * dt < tend - dt / 2
    · rw [timeStepLoop_next hdt u h, timeStepLoopVTK_next hdt u h]
      have := guard_lt_stepBound hdt h
      exact ih (cnt + 1) _ (by omega)
    · rw [timeStepLoop_exit hdt u h, timeStepLoopVTK_exit hdt u h]

/-- C9: TimeStepping and TimeSteppingVTK compute the same result on
identical inputs: the same number of iterations, driven by the same guard
time values, with the identical cdStep update at the same pre-states, so
the final step count and solution vector agree.  The two differ only in
the output sink receiving snapshots, which carries no state. -/
theorem timeStepping_eq_vtk {n : ℕ} (invmstar amat : Matrix (Fin n) (Fin n) ℚ)
    (fvec : Fin n → ℚ) (dt : ℚ) (hdt : 0 < dt) (t0 tend : ℚ)
    (u0 : Fin n → ℚ) :
    timeStepping invmstar amat fvec dt hdt t0 tend u0 =
      timeSteppingVTK invmstar amat fvec dt hdt t0 tend u0 := by
  unfold timeStepping timeSteppingVTK
  split
  · exact loops_eq_aux invmstar amat fvec dt tend hdt
      (stepBound dt tend) 1 _ (by omega)
  · rfl

/-- Witness for C9 at a concrete input. -/
theorem timeStepping_eq_vtk_witness :
    (0 : ℚ) < 1 ∧
    timeStepping (1 : Matrix (Fin 1) (Fin 1) ℚ) 1 0 1 (by norm_num) 0 1 0 =
      timeSteppingVTK (1 : Matrix (Fin 1) (Fin 1) ℚ) 1 0 1 (by norm_num) 0 1 0 :=
  ⟨by norm_num, timeStepping_eq_vtk 1 1 0 1 (by norm_num) 0 1 0⟩

theorem timeStepLoop_count_aux {n : ℕ} (invmstar amat : Matrix (Fin n) (Fin n) ℚ)
    (fvec : Fin n → ℚ) (dt tend : ℚ) (hdt : 0 < dt) :
    ∀ k cnt, ∀ u : Fin n → ℚ, stepBound dt tend - cnt ≤ k →
      (∀ m : ℕ, m < cnt → (m : ℚ) * dt < tend - dt / 2) →
      ∀ nn : ℕ,
        nn < (timeStepLoop invmstar amat fvec dt tend hdt cnt u).1 ↔
          (nn : ℚ) * dt < tend - dt / 2 := by
  intro k
  induction k with
  | zero =>
    intro cnt u hk hall nn
    have hng : ¬ ((cnt : ℚ) * dt < tend - dt / 2) := by
      intro h
      have := guard_lt_stepBound hdt h
      omega
    rw [timeStepLoop_exit hdt u hng]
    constructor
    · intro hlt
      exact hall nn hlt
    · intro hg
      by_contra hge
      push_neg at hge
      exact guard_mono_fail hdt hge hng hg
  | succ k ih =>
    intro cnt u hk hall nn
    by_cases h : (cnt : ℚ) * dt < tend - dt / 2
    · rw [timeStepLoop_next hdt u h]
      have hlt := guard_lt_stepBound hdt h
      refine ih (cnt + 1) _ (by omega) ?_ nn
      intro m hm
      rcases Nat.lt_succ_iff_lt_or_eq.mp hm with hm1 | hm1
      · exact hall m hm1
      · rw [hm1]
        exact h
    · rw [timeStepLoop_exit hdt u h]
      constructor
      · intro hlt
        exact hall nn hlt
      · intro hg
        by_contra hge
        push_neg at hge
        exact guard_mono_fail hdt hge h hg

/-- C3: for every dt > 0 the time-stepping loop terminates (it is a total
function here), and starting from t0 = 0 with the loop time recomputed as
cnt * dt, step number nn is executed exactly when nn * dt < tend - dt / 2:
so the number of steps performed is the least n with
n * dt >= tend - dt / 2. -/
theorem timeStepping_step_count {n : ℕ} (invmstar amat : Matrix (Fin n) (Fin n) ℚ)
    (fvec : Fin n → ℚ) (dt : ℚ) (hdt : 0 < dt) (tend : ℚ) (u0 : Fin n → ℚ)
    (nn : ℕ) :
    nn < (timeStepping invmstar amat fvec dt hdt 0 tend u0).1 ↔
      (nn : ℚ) * dt < tend - dt / 2 := by
  unfold timeStepping
  by_cases h0 : (0 : ℚ) < tend - dt / 2
  · rw [if_pos h0]
    refine timeStepLoop_count_aux invmstar amat fvec dt tend hdt
      (stepBound dt tend) 1 _ (by omega) ?_ nn
    intro m hm
    have hm0 : m = 0 := by omega
    rw [hm0]
    simpa using h0
  · rw [if_neg h0]
    simp only
    constructor
    · intro hlt
      omega
    · intro hg
      have h0g : ¬ ((0 : ℚ) * (dt : ℚ) < tend - dt / 2) := by simpa using h0
      exact absurd hg (guard_mono_fail hdt (Nat.zero_le nn) (by simpa using h0))

/-- Witness for C3 at dt = 1, tend = 2: step 1 is executed since
1 * 1 < 2 - 1/2. -/
theorem timeStepping_step_count_witness :
    (0 : ℚ) < 1 ∧
    (1 < (timeStepping (1 : Matrix (Fin 1) (Fin 1) ℚ) 1 0 1 (by norm_num) 0 2 0).1 ↔
      ((1 : ℕ) : ℚ) * 1 < 2 - 1 / 2) :=
  ⟨by norm_num, timeStepping_step_count 1 1 0 1 (by norm_num) 2 0 1⟩

/-- C2: one executed iteration of the time-stepping loop changes the
solution vector exactly by delta = invmstar * (dt * f - dt * A * u): the
loop continues at step count cnt + 1 with solution u + delta and nothing
else changes the solution; and when invmstar is the free-dof inverse of
mstar = M + dt * A, delta vanishes on constrained dofs and satisfies
mstar * delta = r on the free dofs, r = dt * f - dt * A * u. -/
theorem timeStepLoop_step_update {n : ℕ}
    (invmstar mMat amat : Matrix (Fin n) (Fin n) ℚ) (fvec : Fin n → ℚ)
    (dt tend : ℚ) (hdt : 0 < dt) (free : Fin n → Bool)
    (hinv : IsFreeDofInverse invmstar (mMat + dt • amat) free)
    (cnt : ℕ) (u : Fin n → ℚ) (hguard : (cnt : ℚ) * dt < tend - dt / 2) :
    timeStepLoop invmstar amat fvec dt tend hdt cnt u =
      timeStepLoop invmstar amat fvec dt tend hdt (cnt + 1)
        (u + invmstar.mulVec (dt • fvec - dt • amat.mulVec u)) ∧
    (∀ i, free i = false →
      invmstar.mulVec (dt • fvec - dt • amat.mulVec u) i = 0) ∧
    (∀ i, free i = true →
      (mMat + dt • amat).mulVec
          (invmstar.mulVec (dt • fvec - dt • amat.mulVec u)) i =
        (dt • fvec - dt • amat.mulVec u) i) := by
  refine ⟨?_, (hinv _).1, (hinv _).2⟩
  rw [timeStepLoop_next hdt u hguard]
  rfl

/-- Witness for C2 at a concrete input: identity mass matrix, zero
stiffness, zero forcing, dt = 1, all dofs free. -/
theorem timeStepLoop_step_update_witness :
    ((0 : ℕ) : ℚ) * 1 < 2 - 1 / 2 ∧
    timeStepLoop (1 : Matrix (Fin 1) (Fin 1) ℚ) 0 0 1 2 (by norm_num) 0 0 =
      timeStepLoop (1 : Matrix (Fin 1) (Fin 1) ℚ) 0 0 1 2 (by norm_num) 1
        ((0 : Fin 1 → ℚ) + (1 : Matrix (Fin 1) (Fin 1) ℚ).mulVec
          ((1 : ℚ) • (0 : Fin 1 → ℚ) -
            (1 : ℚ) • (0 : Matrix (Fin 1) (Fin 1) ℚ).mulVec 0)) :=
  ⟨by norm_num,
    (timeStepLoop_step_update 1 1 0 0 1 2 (by norm_num) (fun _ => true)
      (by
        intro r
        constructor
        · intro i hi
          simp at hi
        · intro i _
          have hm : (1 : Matrix (Fin 1) (Fin 1) ℚ) + (1 : ℚ) • (0 : Matrix (Fin 1) (Fin 1) ℚ) = 1 := by
            simp
          rw [hm, Matrix.one_mulVec, Matrix.one_mulVec])
      0 0 (by norm_num)).1⟩

theorem cdStep_zero {n : ℕ} (invmstar amat : Matrix (Fin n) (Fin n) ℚ)
    (dt : ℚ) :
    cdStep invmstar amat (0 : Fin n → ℚ) dt (0 : Fin n → ℚ) = 0 := by
  simp [cdStep, Matrix.mulVec_zero]

theorem timeStepLoop_zero_aux {n : ℕ} (invmstar amat : Matrix (Fin n) (Fin n) ℚ)
    (dt tend : ℚ) (hdt : 0 < dt) :
    ∀ k cnt, stepBound dt tend - cnt ≤ k →
      (timeStepLoop invmstar amat (0 : Fin n → ℚ) dt tend hdt cnt 0).2 = 0 := by
  intro k
  induction k with
  | zero =>
    intro cnt hk
    have hng : ¬ ((cnt : ℚ) * dt < tend - dt / 2) := by
      intro h
      have := guard_lt_stepBound hdt h
      omega
    rw [timeStepLoop_exit hdt 0 hng]
  | succ k ih =>
    intro cnt hk
    by_cases h : (cnt : ℚ) * dt < tend - dt / 2
    · rw [timeStepLoop_next hdt 0 h, cdStep_zero]
      have := guard_lt_stepBound hdt h
      exact ih (cnt + 1) (by omega)
    · rw [timeStepLoop_exit hdt 0 h]

/-- C8: with zero forcing vector and zero current solution (zero initial
condition and zero boundary data), the zero state is preserved: the
residual dt * f - dt * A * 0 is zero, the solve returns zero, and after
every iteration of the time-stepping loop the solution vector is still
exactly zero, as is the final result. -/
theorem timeStepping_zero_invariant {n : ℕ}
    (invmstar amat : Matrix (Fin n) (Fin n) ℚ) (dt : ℚ) (hdt : 0 < dt)
    (t0 tend : ℚ) :
    (∀ cnt : ℕ,
      (timeStepLoop invmstar amat (0 : Fin n → ℚ) dt tend hdt cnt 0).2 = 0) ∧
    (timeStepping invmstar amat (0 : Fin n → ℚ) dt hdt t0 tend 0).2 = 0 := by
  constructor
  · intro cnt
    exact timeStepLoop_zero_aux invmstar amat dt tend hdt
      (stepBound dt tend) cnt (by omega)
  · unfold timeStepping
    split
    · rw [cdStep_zero]
      exact timeStepLoop_zero_aux invmstar amat dt tend hdt
        (stepBound dt tend) 1 (by omega)
    · rfl

/-- Witness for C8 at a concrete input. -/
theorem timeStepping_zero_invariant_witness :
    (0 : ℚ) < 1 ∧
    (timeStepping (1 : Matrix (Fin 1) (Fin 1) ℚ) 1 0 1 (by norm_num) 0 2 0).2 = 0 :=
  ⟨by norm_num, (timeStepping_zero_invariant 1 1 1 (by norm_num) 0 2).2⟩

/-- The loop state of the mean-curvature-flow evolution: iteration counter
i, time t, current position field Xh and deformation field dXh. -/
structure MCFState (n : ℕ) where
  i : ℕ
  t : ℚ
  Xh : Fin n → ℚ
  dXh : Fin n → ℚ

/-- One iteration body of the evolution loop from the Dziuk notebook:
M.Assemble() and l.Assemble() integrate over the geometry deformed by the
current dXh (modelled as abstract assembly maps from the deformation
field), Minv.Update() refreshes the factorization of the newly assembled
matrix, Xh.vec.data = Minv * l.vec, dXh.vec.data = Xh.vec - Idh.vec, and
then t += tau and i += 1. -/
def mcfStep {n : ℕ} (assembleM : (Fin n → ℚ) → Matrix (Fin n) (Fin n) ℚ)
    (assembleL : (Fin n → ℚ) → (Fin n → ℚ))
    (updInv : Matrix (Fin n) (Fin n) ℚ → Matrix (Fin n) (Fin n) ℚ)
    (Idh : Fin n → ℚ) (tau : ℚ) (s : MCFState n) : MCFState n :=
  let Mmat := assembleM s.dXh
  let lvec := assembleL s.dXh
  let Minv := updInv Mmat
  let Xhn := Minv.mulVec lvec
  ⟨s.i + 1, s.t + tau, Xhn, Xhn - Idh⟩

set_option linter.unusedVariables false in
/-- The evolution loop from the Dziuk notebook:
while t <= Tend - tau, execute one mcfStep (reassemble, update the
factorization, solve, update the deformation, advance time). -/
def mcfLoop {n : ℕ} (assembleM : (Fin n → ℚ) → Matrix (Fin n) (Fin n) ℚ)
    (assembleL : (Fin n → ℚ) → (Fin n → ℚ))
    (updInv : Matrix (Fin n) (Fin n) ℚ → Matrix (Fin n) (Fin n) ℚ)
    (Idh : Fin n → ℚ) (tau Tend : ℚ) (htau : 0 < tau) (s : MCFState n) :
    MCFState n :=
  if h : s.t ≤ Tend - tau then
    mcfLoop assembleM assembleL updInv Idh tau Tend htau
      (mcfStep assembleM assembleL updInv Idh tau s)
  else s
termination_by (Int.ceil ((Tend - s.t) / tau)).toNat
decreasing_by
  simp only [mcfStep]
  have e : (Tend - (s.t + tau)) / tau = (Tend - s.t) / tau - 1 := by
    field_simp
    ring
  rw [e, Int.ceil_sub_one]
  have h1 : (1 : ℚ) ≤ (Tend - s.t) / tau := by
    rw [le_div_iff₀ htau]
    linarith
  have h2 : (1 : ℤ) ≤ Int.ceil ((Tend - s.t) / tau) := by
    have := Int.le_ceil ((Tend - s.t) / tau)
    exact_mod_cast le_trans h1 this
  omega

/-- C5: each step of the evolution loop solves the combined system over
all dofs (the free-dof set passed to the inverse constrains nothing on the
closed surface): the new position field Xh satisfies M * Xh = l at every
dof, with M and l assembled from the current deformation; the deformation
field is then set to exactly new position minus reference position,
dXh = Xh - Idh, and time advances by tau (with the iteration counter
incremented by one). -/
theorem mcfStep_solves {n : ℕ}
    (assembleM : (Fin n → ℚ) → Matrix (Fin n) (Fin n) ℚ)
    (assembleL : (Fin n → ℚ) → (Fin n → ℚ))
    (updInv : Matrix (Fin n) (Fin n) ℚ → Matrix (Fin n) (Fin n) ℚ)
    (Idh : Fin n → ℚ) (tau : ℚ) (s : MCFState n)
    (hinv : IsFreeDofInverse (updInv (assembleM s.dXh)) (assembleM s.dXh)
      (fun _ => true)) :
    (∀ j, (assembleM s.dXh).mulVec
        ((mcfStep assembleM assembleL updInv Idh tau s).Xh) j =
      assembleL s.dXh j) ∧
    (mcfStep assembleM assembleL updInv Idh tau s).dXh =
      (mcfStep assembleM assembleL updInv Idh tau s).Xh - Idh ∧
    (mcfStep assembleM assembleL updInv Idh tau s).t = s.t + tau ∧
    (mcfStep assembleM assembleL updInv Idh tau s).i = s.i + 1 := by
  refine ⟨?_, rfl, rfl, rfl⟩
  intro j
  exact (hinv (assembleL s.dXh)).2 j rfl

/-- A concrete initial state used to instantiate the evolution theorems. -/
def mcfSEx : MCFState 1 := ⟨0, 0, 0, 0⟩

/-- Witness for C5 at a concrete input: identity operator assembly, the
solve property instantiated at dof 0 together with the time update. -/
theorem mcfStep_solves_witness :
    ((fun _ : Fin 1 → ℚ => (1 : Matrix (Fin 1) (Fin 1) ℚ)) mcfSEx.dXh).mulVec
        ((mcfStep (fun _ => (1 : Matrix (Fin 1) (Fin 1) ℚ))
          (fun _ => fun _ => (2 : ℚ)) (fun _ => 1) 0 1 mcfSEx).Xh) 0 =
      (fun _ : Fin 1 → ℚ => fun _ : Fin 1 => (2 : ℚ)) mcfSEx.dXh 0 ∧
    (mcfStep (fun _ => (1 : Matrix (Fin 1) (Fin 1) ℚ))
        (fun _ => fun _ => (2 : ℚ)) (fun _ => 1) 0 1 mcfSEx).t = mcfSEx.t + 1 := by
  have h := mcfStep_solves (fun _ => (1 : Matrix (Fin 1) (Fin 1) ℚ))
    (fun _ => fun _ => (2 : ℚ)) (fun _ => 1) 0 1 mcfSEx
    (by
      intro r
      constructor
      · intro i hi
        simp at hi
      · intro i _
        rw [Matrix.one_mulVec, Matrix.one_mulVec])
  exact ⟨h.1 0, h.2.2.1⟩

/-- C6: an executed iteration of the evolution loop uses no operator or
right-hand side from a previous geometry: when the guard holds, the loop
continues with mcfStep applied to the current state, and the position
solved for in that step is computed from the factorization of the matrix
assembled at the deformation dXh entering the iteration, applied to the
right-hand side assembled at that same deformation, both produced before
the solve. -/
theorem mcfLoop_reassembles {n : ℕ}
    (assembleM : (Fin n → ℚ) → Matrix (Fin n) (Fin n) ℚ)
    (assembleL : (Fin n → ℚ) → (Fin n → ℚ))
    (updInv : Matrix (Fin n) (Fin n) ℚ → Matrix (Fin n) (Fin n) ℚ)
    (Idh : Fin n → ℚ) (tau Tend : ℚ) (htau : 0 < tau) (s : MCFState n)
    (hguard : s.t ≤ Tend - tau) :
    mcfLoop assembleM assembleL updInv Idh tau Tend htau s =
      mcfLoop assembleM assembleL updInv Idh tau Tend htau
        (mcfStep assembleM assembleL updInv Idh tau s) ∧
    (mcfStep assembleM assembleL updInv Idh tau s).Xh =
      (updInv (assembleM s.dXh)).mulVec (assembleL s.dXh) ∧
    (mcfStep assembleM assembleL updInv Idh tau s).dXh =
      (updInv (assembleM s.dXh)).mulVec (assembleL s.dXh) - Idh := by
  refine ⟨?_, rfl, rfl⟩
  rw [mcfLoop]
  simp [hguard]

/-- Witness for C6 at a concrete input with tau = 1, Tend = 2 and the
guard satisfied at t = 0. -/
theorem mcfLoop_reassembles_witness :
    (0 : ℚ) < 1 ∧ mcfSEx.t ≤ (2 : ℚ) - 1 ∧
    (mcfStep (fun _ => (1 : Matrix (Fin 1) (Fin 1) ℚ))
        (fun _ => fun _ => (2 : ℚ)) (fun _ => 1) 0 1 mcfSEx).Xh =
      ((fun _ : Matrix (Fin 1) (Fin 1) ℚ => (1 : Matrix (Fin 1) (Fin 1) ℚ))
          ((fun _ : Fin 1 → ℚ => (1 : Matrix (Fin 1) (Fin 1) ℚ)) mcfSEx.dXh)).mulVec
        ((fun _ : Fin 1 → ℚ => fun _ : Fin 1 => (2 : ℚ)) mcfSEx.dXh) :=
  ⟨by norm_num, by simp [mcfSEx],
    (mcfLoop_reassembles (fun _ => (1 : Matrix (Fin 1) (Fin 1) ℚ))
      (fun _ => fun _ => (2 : ℚ)) (fun _ => 1) 0 1 2 (by norm_num) mcfSEx
      (by simp [mcfSEx])).2.1⟩

/-- C4: the vector produced by a.mat.Inverse(freedofs=...) * r vanishes at
every constrained dof, so gfu.vec.data += Inverse * r leaves every
constrained entry of gfu.vec exactly as it was (holding the boundary value
previously written by gfu.Set(g, BND)); only free-dof entries change. -/
theorem freeDofSolve_preserves_constrained {n : ℕ}
    (ainv amat : Matrix (Fin n) (Fin n) ℚ) (free : Fin n → Bool)
    (hinv : IsFreeDofInverse ainv amat free) (gfu r : Fin n → ℚ) :
    ∀ i, free i = false →
      ainv.mulVec r i = 0 ∧ (gfu + ainv.mulVec r) i = gfu i := by
  intro i hi
  have hz := (hinv r).1 i hi
  exact ⟨hz, by simp [Pi.add_apply, hz]⟩

/-- Witness for C4 at a concrete input: a single constrained dof, the zero
map as restricted inverse, and a nonzero pre-populated boundary entry. -/
theorem freeDofSolve_preserves_constrained_witness :
    (fun _ : Fin 1 => false) 0 = false ∧
    ((fun _ : Fin 1 => (5 : ℚ)) +
        (0 : Matrix (Fin 1) (Fin 1) ℚ).mulVec (fun _ => 7)) 0 =
      (fun _ : Fin 1 => (5 : ℚ)) 0 :=
  ⟨rfl,
    (freeDofSolve_preserves_constrained 0 1 (fun _ => false)
      (by
        intro r
        constructor
        · intro i _
          simp [Matrix.zero_mulVec]
        · intro i hi
          simp at hi)
      (fun _ => (5 : ℚ)) (fun _ => 7) 0 rfl).2⟩

/-- Modelled from the spec: the mesh data a FunctionSpace consumes, with
vertex, edge and face counts and named boundary regions, each region
listing the dof indices located on it. -/
structure MeshData where
  nv : ℕ
  ne : ℕ
  nf : ℕ
  regions : List (String × List ℕ)

/-- Modelled from the spec: a FunctionSpace owns a total dof count and the
list of constrained (Dirichlet) dofs, assigned at construction from the
named boundary regions designated constrained. -/
structure FESpace where
  ndof : ℕ
  constrainedDofs : List ℕ

/-- Modelled from the spec: the H1 dof count for a mesh and polynomial
order, accumulated with sharing over vertices, edges and faces.  It
depends only on the mesh and the order, never on the dirichlet regions. -/
def h1Ndof (m : MeshData) (order : ℕ) : ℕ :=
  m.nv + (order - 1) * m.ne + ((order - 1) * (order - 2) / 2) * m.nf

/-- Modelled from the spec: H1(mesh, order, dirichlet=...) builds the
space; the constrained dofs are those listed in the boundary regions whose
name appears in the dirichlet specification. -/
def h1Space (m : MeshData) (order : ℕ) (dirichlet : List String) : FESpace :=
  ⟨h1Ndof m order,
    (m.regions.filter (fun p => decide (p.1 ∈ dirichlet))).foldr
      (fun p acc => p.2 ++ acc) []⟩

/-- Modelled from the spec: fes.FreeDofs() marks a dof free exactly when
it is not constrained. -/
def FreeDofs (fes : FESpace) (d : ℕ) : Bool :=
  !(fes.constrainedDofs.contains d)

/-- A dof is constrained when it belongs to the constrained dof list. -/
def isConstrained (fes : FESpace) (d : ℕ) : Bool :=
  fes.constrainedDofs.contains d

/-- C7: the dirichlet flag does not change ndof, the free/constrained
classification is a total disjoint split (every dof carries exactly one of
the two labels), and with no dirichlet regions every dof is free. -/
theorem h1_ndof_and_partition (m : MeshData) (order : ℕ)
    (dirichlet : List String) :
    (h1Space m order dirichlet).ndof = (h1Space m order []).ndof ∧
    (∀ d : ℕ,
      (FreeDofs (h1Space m order dirichlet) d = true ∧
        isConstrained (h1Space m order dirichlet) d = false) ∨
      (FreeDofs (h1Space m order dirichlet) d = false ∧
        isConstrained (h1Space m order dirichlet) d = true)) ∧
    (∀ d : ℕ, FreeDofs (h1Space m order []) d = true) := by
  refine ⟨rfl, ?_, ?_⟩
  · intro d
    cases h : isConstrained (h1Space m order dirichlet) d
    · left
      exact ⟨by simp [FreeDofs, isConstrained] at h ⊢; simpa using h, rfl⟩
    · right
      exact ⟨by simp [FreeDofs, isConstrained] at h ⊢; simpa using h, rfl⟩
  · intro d
    have hnil : (h1Space m order []).constrainedDofs = [] := by
      simp [h1Space]
    simp [FreeDofs, hnil]

/-- The differential operator applied to a trial or test function in a
form term: plain value, the ambient gradient, or the traced (tangential)
gradient grad(.).Trace(). -/
inductive DiffOp where
  | value : DiffOp
  | grad : DiffOp
  | gradTrace : DiffOp
deriving DecidableEq

/-- The integration domain of a form term: volume dx or surface ds. -/
inductive IntDomain where
  | dx : IntDomain
  | ds : IntDomain
deriving DecidableEq

/-- One term of a bilinear form: the operators applied to the trial and
test functions and the integration domain. -/
structure FormTerm where
  trial : DiffOp
  test : DiffOp
  domain : IntDomain

/-- The error raised during assembly. -/
inductive AssembleError where
  | untracedSurfaceGradient : AssembleError
deriving DecidableEq

/-- Modelled from the spec and the surface_pdes notebook: for a
first-class surface space (H1, HCurl, HCurlCurl), a surface integral (ds)
term is only assemblable when every gradient is traced; an untraced
gradient in a ds term throws an exception during assembling. -/
def termOk (firstClass : Bool) (t : FormTerm) : Bool :=
  !(firstClass && decide (t.domain = IntDomain.ds) &&
    (decide (t.trial = DiffOp.grad) || decide (t.test = DiffOp.grad)))

/-- Modelled from the spec and the surface_pdes notebook: a.Assemble()
checks every accumulated term and raises instead of silently integrating
the ambient gradient over the surface. -/
def assembleBF (firstClass : Bool) (terms : List FormTerm) :
    Except AssembleError Unit :=
  if terms.all (termOk firstClass) then Except.ok ()
  else Except.error AssembleError.untracedSurfaceGradient

/-- C10: on a first-class surface space, adding grad(u)*grad(v)*ds without
Trace to any bilinear form makes Assemble fail with an exception, while
the traced surface term assembles fine: the surface-gradient mistake is
detected at assembly time. -/
theorem assemble_untraced_grad_fails (prior : List FormTerm) :
    assembleBF true
        (prior ++ [⟨DiffOp.grad, DiffOp.grad, IntDomain.ds⟩]) =
      Except.error AssembleError.untracedSurfaceGradient ∧
    assembleBF true [⟨DiffOp.gradTrace, DiffOp.gradTrace, IntDomain.ds⟩] =
      Except.ok () := by
  constructor
  · unfold assembleBF
    rw [if_neg]
    simp [List.all_append, termOk]
  · rfl

end NgsWorkshop
